import Mathlib

/-
Verification of the natural-language specification of the `aoc20` puzzle
solver repository against a shallow Lean embedding of its Rust sources.

Each Rust function relevant to a claim is translated into an executable
Lean definition; machine integers are modelled as `Nat`/`Int` (the claims
only exercise executions where no overflow occurs, and where overflow or a
panic is possible the model makes it explicit: fallible code returns
`Option`, with `none` standing for a Rust panic).
-/

/- ===================== src/util.rs ===================== -/

namespace Util

/- `const NEWLINE: u8 = 0x0A` -/
def NEWLINE : Nat := 0x0A

/- Rust `bytes.split(|byte| *byte == NEWLINE)` on a byte slice: the list of
pieces delimited by newline bytes.  `n` separators yield `n + 1` pieces,
empty pieces included (splitting the empty slice yields one empty piece). -/
def splitBytes : List Nat → List (List Nat)
  | [] => [[]]
  | b :: rest =>
    if b = NEWLINE then [] :: splitBytes rest
    else
      match splitBytes rest with
      | [] => [[b]]
      | p :: ps => (b :: p) :: ps

/- `pub fn split_bytes_lines(bytes: &[u8]) -> impl Iterator<Item = &[u8]>`:
`bytes.split(|byte| *byte == NEWLINE).take_while(|piece| !piece.is_empty())`. -/
def split_bytes_lines (bytes : List Nat) : List (List Nat) :=
  (splitBytes bytes).takeWhile (fun piece => !piece.isEmpty)

theorem splitBytes_ne_nil (bytes : List Nat) : splitBytes bytes ≠ [] := by
  cases bytes with
  | nil => simp [splitBytes]
  | cons b rest =>
    simp only [splitBytes]
    split
    · simp
    · split <;> simp

end Util

/- Helper facts about `List.takeWhile`, used for the claims about
`split_bytes_lines`. -/

theorem takeWhile_getElem_eq {α : Type} (p : α → Bool) :
    ∀ (l : List α) (i : Nat), i < l.length →
      (∀ j, j ≤ i → ∀ hj : j < l.length, p (l.get ⟨j, hj⟩) = true) →
      (l.takeWhile p)[i]? = l[i]?
  | [], i, hi, _ => by simp at hi
  | x :: xs, i, hi, h => by
    have hx : p x = true := h 0 (Nat.zero_le _) (by simp)
    rw [List.takeWhile_cons_of_pos hx]
    cases i with
    | zero => simp
    | succ j =>
      have hj : j < xs.length := by simpa using hi
      have ih := takeWhile_getElem_eq p xs j hj
        (fun k hk hk2 => h (k + 1) (by omega) (by simpa using hk2))
      simpa using ih

theorem takeWhile_length_lt_imp {α : Type} (p : α → Bool) :
    ∀ (l : List α), (l.takeWhile p).length < l.length →
      ∃ x, l[(l.takeWhile p).length]? = some x ∧ p x = false
  | [], hlt => by simp at hlt
  | x :: xs, hlt => by
    by_cases hx : p x = true
    · rw [List.takeWhile_cons_of_pos hx] at hlt ⊢
      have hlt2 : (xs.takeWhile p).length < xs.length := by simpa using hlt
      obtain ⟨y, hy1, hy2⟩ := takeWhile_length_lt_imp p xs hlt2
      exact ⟨y, by simpa using hy1, hy2⟩
    · have hx2 : p x = false := by simpa using hx
      rw [List.takeWhile_cons_of_neg (by simp [hx2])]
      exact ⟨x, by simp, hx2⟩

/-- C6: `split_bytes_lines` yields exactly the maximal prefix of non-empty
newline-separated pieces of the buffer: it never yields an empty slice, the
yielded pieces form a prefix of the newline-delimited pieces, and whenever
the output stops short of all pieces, the piece at the cut-off position is
empty (so everything at or after the first empty piece is never yielded). -/
theorem split_bytes_lines_maximal_nonempty_pieces (bytes : List Nat) :
    (∀ p, p ∈ Util.split_bytes_lines bytes → p ≠ []) ∧
    (Util.split_bytes_lines bytes) <+: (Util.splitBytes bytes) ∧
    ((Util.split_bytes_lines bytes).length < (Util.splitBytes bytes).length →
      (Util.splitBytes bytes)[(Util.split_bytes_lines bytes).length]? = some []) := by
  refine ⟨?_, ?_, ?_⟩
  · intro p hp
    have := List.mem_takeWhile_imp hp
    simpa using this
  · exact List.takeWhile_prefix _
  · intro hlt
    have heq : Util.split_bytes_lines bytes =
        (Util.splitBytes bytes).takeWhile (fun piece => !piece.isEmpty) := rfl
    rw [heq] at hlt ⊢
    obtain ⟨x, hx1, hx2⟩ := takeWhile_length_lt_imp (fun piece => !piece.isEmpty)
      (Util.splitBytes bytes) hlt
    have hxnil : x = [] := by simpa [List.isEmpty_iff] using hx2
    rw [hx1, hxnil]

/-- C6 witness: on the buffer `"a\n\nb"` the first piece `[97]` is yielded
and is non-empty. -/
theorem split_bytes_lines_maximal_nonempty_pieces_witness :
    [97] ∈ Util.split_bytes_lines [97, 10, 10, 98] ∧ [97] ≠ [] :=
  ⟨by decide, (split_bytes_lines_maximal_nonempty_pieces [97, 10, 10, 98]).1 [97] (by decide)⟩

/-- C5 counterexample: on the buffer `"a\n\nb"` (bytes `[97, 10, 10, 98]`)
the newline-delimited piece `[98]` exists but is never yielded by
`split_bytes_lines`, so not every newline-delimited piece is yielded. -/
theorem split_bytes_lines_not_all_pieces :
    [98] ∈ Util.splitBytes [97, 10, 10, 98] ∧
    [98] ∉ Util.split_bytes_lines [97, 10, 10, 98] := by
  constructor
  · decide
  · decide

/-- C5 (amended): `split_bytes_lines` yields, in order and at the same
position, every newline-delimited piece of the buffer that is preceded by
no empty piece (itself included); pieces at or after the first empty piece
are dropped. -/
theorem split_bytes_lines_yields_pieces_before_empty (bytes : List Nat) (i : Nat)
    (hi : i < (Util.splitBytes bytes).length)
    (h : ∀ j, j ≤ i → (Util.splitBytes bytes)[j]? ≠ some []) :
    (Util.split_bytes_lines bytes)[i]? = (Util.splitBytes bytes)[i]? := by
  rw [Util.split_bytes_lines]
  apply takeWhile_getElem_eq _ _ _ hi
  intro j hj hjlt
  have hne := h j hj
  rw [List.getElem?_eq_getElem hjlt] at hne
  have : (Util.splitBytes bytes).get ⟨j, hjlt⟩ ≠ [] := by
    intro hcontra
    apply hne
    simp only [List.get_eq_getElem] at hcontra
    rw [hcontra]
  simp only [List.get_eq_getElem]
  simp only [List.get_eq_getElem] at this
  simp [List.isEmpty_iff, this]

/-- C5 witness: on the buffer `"a\nb"` (no empty piece), the piece at
index 1 is yielded at index 1. -/
theorem split_bytes_lines_yields_pieces_before_empty_witness :
    (1 < (Util.splitBytes [97, 10, 98]).length ∧
      ∀ j, j ≤ 1 → (Util.splitBytes [97, 10, 98])[j]? ≠ some []) ∧
    (Util.split_bytes_lines [97, 10, 98])[1]? = (Util.splitBytes [97, 10, 98])[1]? :=
  ⟨⟨by decide, by decide⟩,
    split_bytes_lines_yields_pieces_before_empty [97, 10, 98] 1 (by decide) (by decide)⟩

/- ===================== src/main.rs ===================== -/

namespace Main

/- The fourteen solver modules that `main` dispatches to.  The repository
additionally contains source files `day15.rs` .. `day19.rs`, each exposing
a `run` entry point, but `main.rs` neither declares those modules nor
matches on their names. -/
inductive Day
  | day1 | day2 | day3 | day4 | day5 | day6 | day7
  | day8 | day9 | day10 | day11 | day12 | day13 | day14
deriving DecidableEq

/- The subcommand string that selects a given solver. -/
def dayName : Day → String
  | .day1 => "day1"
  | .day2 => "day2"
  | .day3 => "day3"
  | .day4 => "day4"
  | .day5 => "day5"
  | .day6 => "day6"
  | .day7 => "day7"
  | .day8 => "day8"
  | .day9 => "day9"
  | .day10 => "day10"
  | .day11 => "day11"
  | .day12 => "day12"
  | .day13 => "day13"
  | .day14 => "day14"

/- Outcome of the `match command.as_str()` dispatch in `main`: either some
day's `run` is called with the remaining arguments, or an error value is
returned to the caller. -/
inductive DispatchResult
  | runDay (d : Day) (rest : List String)
  | error (msg : String)
deriving DecidableEq

/- The `match command.as_str() { "day1" => day1::run(rest), ...,
_ => Err(anyhow!("unrecognized command: '{}'", command)) }` dispatch. -/
def mainDispatch (command : String) (rest : List String) : DispatchResult :=
  if command = "day1" then .runDay .day1 rest
  else if command = "day2" then .runDay .day2 rest
  else if command = "day3" then .runDay .day3 rest
  else if command = "day4" then .runDay .day4 rest
  else if command = "day5" then .runDay .day5 rest
  else if command = "day6" then .runDay .day6 rest
  else if command = "day7" then .runDay .day7 rest
  else if command = "day8" then .runDay .day8 rest
  else if command = "day9" then .runDay .day9 rest
  else if command = "day10" then .runDay .day10 rest
  else if command = "day11" then .runDay .day11 rest
  else if command = "day12" then .runDay .day12 rest
  else if command = "day13" then .runDay .day13 rest
  else if command = "day14" then .runDay .day14 rest
  else .error ("unrecognized command: \x27" ++ command ++ "\x27")

def recognizedDays : List String :=
  ["day1", "day2", "day3", "day4", "day5", "day6", "day7",
   "day8", "day9", "day10", "day11", "day12", "day13", "day14"]

end Main

/-- C1 counterexample: `day15.rs` is a solver unit of the repository (it
exposes a `run` entry point), and `day15` lies in the range
`day1`..`day19`, yet dispatching `day15` does not call any solver: it
falls through to the error branch. -/
theorem dispatch_day15_not_dispatched :
    Main.mainDispatch "day15" [] = .error "unrecognized command: \x27day15\x27" := by
  decide

/-- C1 (amended): the CLI dispatcher maps the first command-line argument
to the corresponding solver for every day name `day1` through `day14`
(not `day19`): invoking the binary with that subcommand calls that day's
run function with the remaining arguments passed through unchanged. -/
theorem dispatch_maps_each_recognized_day (d : Main.Day) (rest : List String) :
    Main.mainDispatch (Main.dayName d) rest = .runDay d rest := by
  cases d <;> rfl

/-- C8: for every subcommand string that is not a recognized day name, the
dispatcher does not panic and does not call any solver: it returns an
error value whose message names the unrecognized command. -/
theorem dispatch_unrecognized_is_error (command : String) (rest : List String)
    (h : command ∉ Main.recognizedDays) :
    Main.mainDispatch command rest =
      .error ("unrecognized command: \x27" ++ command ++ "\x27") := by
  simp only [Main.recognizedDays, List.mem_cons, List.not_mem_nil, or_false] at h
  push_neg at h
  obtain ⟨h1, h2, h3, h4, h5, h6, h7, h8, h9, h10, h11, h12, h13, h14⟩ := h
  rw [Main.mainDispatch]
  rw [if_neg h1, if_neg h2, if_neg h3, if_neg h4, if_neg h5, if_neg h6, if_neg h7,
    if_neg h8, if_neg h9, if_neg h10, if_neg h11, if_neg h12, if_neg h13, if_neg h14]

/-- C8 witness: the unrecognized subcommand `day15` yields the error value
naming it. -/
theorem dispatch_unrecognized_is_error_witness :
    ("day15" ∉ Main.recognizedDays) ∧
    Main.mainDispatch "day15" ["input.txt"] =
      .error ("unrecognized command: \x27" ++ "day15" ++ "\x27") :=
  ⟨by decide, dispatch_unrecognized_is_error "day15" ["input.txt"] (by decide)⟩

/- ===================== src/day8.rs ===================== -/

namespace Day8

/- `enum Instr { Acc(i16), Jmp(i16), Nop(i16) }`.  The claims only exercise
executions whose accumulator and instruction pointer stay far inside the
`i16` range, so the values are modelled as unbounded `Int`. -/
inductive Instr
  | acc (v : Int)
  | jmp (v : Int)
  | nop (v : Int)
deriving DecidableEq

def Instr.is_jmp : Instr → Bool
  | .jmp _ => true
  | _ => false

def Instr.is_nop : Instr → Bool
  | .nop _ => true
  | _ => false

/- `Instr::repair`: `Jmp(off)` becomes `Nop(off)` and vice versa;
repairing an `Acc` panics (`none`). -/
def Instr.repair : Instr → Option Instr
  | .jmp off => some (.nop off)
  | .nop off => some (.jmp off)
  | .acc _ => none

/- Rust `<i16 as FromStr>::from_str`: an optional sign character followed
by at least one ASCII digit, with the value required to fit in `i16`
(checked arithmetic in the Rust parser overflows exactly when the denoted
value is out of range, since digits only grow the magnitude). -/
def parseDigits : List Char → Option Nat
  | [] => none
  | [c] => if c.isDigit then some (c.toNat - '0'.toNat) else none
  | c :: rest =>
    if c.isDigit then
      (parseDigits rest).map (fun n => (c.toNat - '0'.toNat) * 10 ^ rest.length + n)
    else none

def parseI16 (s : List Char) : Option Int :=
  match s with
  | [] => none
  | c :: rest =>
    let signedDigits : Int × List Char :=
      if c = '+' then (1, rest) else if c = '-' then (-1, rest) else (1, s)
    match parseDigits signedDigits.2 with
    | none => none
    | some v =>
      let x : Int := signedDigits.1 * v
      if -32768 ≤ x ∧ x ≤ 32767 then some x else none

/- `Instr::from_str`: `let (instr, val) = s.split_at(3);
let val = val[1..].parse::<i16>().expect("Invalid value");` then a match
on the mnemonic with `panic!("Invalid instruction")` as the fallback.
A panic (from `split_at`, the slice `val[1..]`, `expect` or `panic!`) is
modelled as `none`; strings are modelled as their character lists. -/
def instrFromStr (s : List Char) : Option Instr :=
  if s.length < 3 then none
  else if s.length < 4 then none
  else
    match parseI16 (s.drop 4) with
    | none => none
    | some v =>
      if s.take 3 = ['a', 'c', 'c'] then some (.acc v)
      else if s.take 3 = ['j', 'm', 'p'] then some (.jmp v)
      else if s.take 3 = ['n', 'o', 'p'] then some (.nop v)
      else none

/- `fn eval(instrs: &[Instr]) -> Result<i16, i16>`. -/
inductive EvalResult
  | ok (acc : Int)
  | err (acc : Int)
deriving DecidableEq

/- One modelled pass of the `loop` in `eval`, with explicit fuel (the Rust
loop runs at most `instrs.len() + 1` iterations because every non-final
iteration inserts a fresh index into the visited set).  `none` models a
panic (out-of-bounds instruction pointer) or exhausted fuel. -/
def evalGo (instrs : List Instr) : Nat → List Nat → Int → Int → Option EvalResult
  | 0, _, _, _ => none
  | fuel + 1, visited, ip, acc =>
    if ip = instrs.length then some (.ok acc)
    else if ip < 0 then none
    else
      match instrs[ip.toNat]? with
      | none => none
      | some instr =>
        if ip.toNat ∈ visited then some (.err acc)
        else
          let visited2 := ip.toNat :: visited
          match instr with
          | .acc amt => evalGo instrs fuel visited2 (ip + 1) (acc + amt)
          | .jmp off => evalGo instrs fuel visited2 (ip + off) acc
          | .nop _ => evalGo instrs fuel visited2 (ip + 1) acc

def eval (instrs : List Instr) : Option EvalResult :=
  evalGo instrs (instrs.length + 1) [] 0 0

/- `FixedBitSet::with_capacity(n)` modelled as `n` false bits; `insert`
panics (`none`) when the index is out of bounds; `ones()` is the ascending
list of set indices. -/
def bsInsert (bs : List Bool) (i : Nat) : Option (List Bool) :=
  if i < bs.length then some (bs.set i true) else none

def bsOnes (bs : List Bool) : List Nat :=
  (List.range bs.length).filter (fun i => bs.getD i false)

/- `fn leaders(instrs: &[Instr], include_nop: bool) -> Leaders`: one fold
iteration per instruction index; inserting a jump target that is negative
casts to a huge `usize` and panics (`none`).  A jump target is only
considered when `idx + off < instrs.len()` as a signed comparison. -/
def leaders (instrs : List Instr) (include_nop : Bool) : Option (List Bool) :=
  (List.range instrs.length).foldlM
    (fun ldrs idx => do
      let ldrs ←
        if idx = 0 then bsInsert ldrs 0
        else
          match instrs[idx - 1]? with
          | none => none
          | some prev =>
            if prev.is_jmp || (include_nop && prev.is_nop) then bsInsert ldrs idx
            else some ldrs
      match instrs[idx]? with
      | none => none
      | some instr =>
        let maybe_target : Option Int :=
          match instr with
          | .jmp off => if (idx : Int) + off < instrs.length then some ((idx : Int) + off) else none
          | .nop off =>
            if include_nop then
              (if (idx : Int) + off < instrs.length then some ((idx : Int) + off) else none)
            else none
          | .acc _ => none
        match maybe_target with
        | some t => if 0 ≤ t then bsInsert ldrs t.toNat else none
        | none => some ldrs)
    (List.replicate instrs.length false)

/- `fn basic_blocks(leader_indices, terminate_idx)`: the `windows(2)`
pairs of consecutive leaders chained with the final
`last_leader..terminate_idx` block; indexing `leader_indices[len - 1]` on
an empty slice panics (`none`).  A block `start..end` is the pair
`(start, end)`. -/
def basic_blocks (leader_indices : List Nat) (terminate_idx : Nat) :
    Option (List (Nat × Nat)) :=
  match leader_indices.getLast? with
  | none => none
  | some last => some ((leader_indices.zip leader_indices.tail) ++ [(last, terminate_idx)])

/- `fn basic_block_map(basic_blocks)`: instruction index to containing
block index, as `repeat(idx).take(block.len())` flattened. -/
def basic_block_map (bbs : List (Nat × Nat)) : List Nat :=
  (bbs.enum.map (fun p => List.replicate (p.2.2 - p.2.1) p.1)).flatten

/- `fn basic_block_graph(...) -> BasicBlockGraph`: the edge list of the
directed basic-block graph over the node set `0 .. bbs.length`.  Per block
there is a fallthrough edge from the previous block when the instruction
before the leader is not a jump, and a jump edge when the block's end
instruction is a jump whose target (cast to `usize`) is in bounds.
Out-of-bounds instruction reads panic (`none`). -/
def basic_block_graph (instrs : List Instr) (bbs : List (Nat × Nat))
    (bbmap : List Nat) : Option (List (Nat × Nat)) :=
  bbs.enum.foldlM
    (fun edges p => do
      let bb_idx := p.1
      let leader_idx := p.2.1
      let end_idx := p.2.2 - 1
      let e1 : List (Nat × Nat) ←
        if leader_idx ≠ 0 then
          match instrs[leader_idx - 1]? with
          | none => none
          | some prev => some (if !prev.is_jmp then [(bb_idx - 1, bb_idx)] else [])
        else some []
      let e2 : List (Nat × Nat) ←
        match instrs[end_idx]? with
        | none => none
        | some (Instr.jmp off) =>
          let t : Int := (end_idx : Int) + off
          if 0 ≤ t ∧ t.toNat < instrs.length then
            match bbmap[t.toNat]? with
            | none => none
            | some tb => some [(bb_idx, tb)]
          else some []
        | some _ => some []
      pure (edges ++ e1 ++ e2))
    []

/- Reachability in the edge-list graph, as computed by the petgraph
`Dfs` walker: the set of nodes reachable from `start`.  Iterating the
one-step expansion `numNodes` times reaches the closure. -/
def reachableAux (edges : List (Nat × Nat)) : Nat → List Nat → List Nat
  | 0, s => s
  | fuel + 1, s =>
    reachableAux edges fuel
      (s ++ (edges.filter (fun e => decide (e.1 ∈ s) && !decide (e.2 ∈ s))).map (fun e => e.2))

def reachable (numNodes : Nat) (edges : List (Nat × Nat)) (start : Nat) : List Nat :=
  reachableAux edges numNodes [start]

/- `fn source_connectivity`: blocks reachable from block 0, as the
ascending index list produced by `ones()`. -/
def source_connectivity (numNodes : Nat) (edges : List (Nat × Nat)) : List Nat :=
  (List.range numNodes).filter (fun i => decide (i ∈ reachable numNodes edges 0))

/- `fn terminal_connectivity`: blocks from which the last block is
reachable (DFS from the terminal over the reversed graph). -/
def terminal_connectivity (numNodes : Nat) (edges : List (Nat × Nat)) : List Nat :=
  reachable numNodes (edges.map (fun e => (e.2, e.1))) (numNodes - 1)

/- `fn is_connected`: the terminal block is reachable from block 0. -/
def is_connected (numNodes : Nat) (edges : List (Nat × Nat)) : Bool :=
  decide ((numNodes - 1) ∈ reachable numNodes edges 0)

/- The search loop at the end of `find_repair`, over the
`(block_idx, instr_idx)` pairs produced from the source-connected blocks;
`Some(0)` is the fallthrough result when no candidate matches.  Indexing
`basic_block_map[target_idx]` with an out-of-range (or negative, cast to
huge `usize`) nop target panics (`none`). -/
def searchRepair (instrs : List Instr) (bbmap : List Nat) (terminal_conn : List Nat) :
    List (Nat × Nat) → Option (Option Nat)
  | [] => some (some 0)
  | (block_idx, instr_idx) :: rest =>
    match instrs[instr_idx]? with
    | none => none
    | some (Instr.jmp _) =>
      if (block_idx + 1) ∈ terminal_conn then some (some instr_idx)
      else searchRepair instrs bbmap terminal_conn rest
    | some (Instr.nop off) =>
      let t : Int := (instr_idx : Int) + off
      if 0 ≤ t then
        match bbmap[t.toNat]? with
        | none => none
        | some target_block =>
          if target_block ∈ terminal_conn then some (some instr_idx)
          else searchRepair instrs bbmap terminal_conn rest
      else none
    | some (Instr.acc _) => searchRepair instrs bbmap terminal_conn rest

/- `fn find_repair(instrs: &[Instr]) -> Option<usize>`.  The outer `Option`
models panics; the inner `Option` is the Rust return value. -/
def find_repair (instrs : List Instr) : Option (Option Nat) := do
  let include_nop := true
  let ldrs ← leaders instrs include_nop
  let leader_indices := bsOnes ldrs
  let terminal_idx := instrs.length
  let bbs ← basic_blocks leader_indices terminal_idx
  let bbmap := basic_block_map bbs
  let edges ← basic_block_graph instrs bbs bbmap
  let numBlocks := bbs.length
  if is_connected numBlocks edges then
    pure none
  else
    let source_conn := source_connectivity numBlocks edges
    let terminal_conn := terminal_connectivity numBlocks edges
    let pairs ← source_conn.foldlM
      (fun acc block_idx => do
        match bbs[block_idx]? with
        | none => none
        | some bb =>
          let leader_idx := bb.1
          let end_idx := bb.2 - 1
          pure (acc ++ ((block_idx, leader_idx) ::
            (if leader_idx ≠ end_idx then [(block_idx, end_idx)] else []))))
      []
    searchRepair instrs bbmap terminal_conn pairs

/- The fixed nine-instruction sample program of the `test_repair` test. -/
def sampleProgram : List Instr :=
  [.nop 0, .acc 1, .jmp 4, .acc 3, .jmp (-3), .acc (-99), .acc 1, .jmp (-4), .jmp 1]

end Day8

/-- C4: on the fixed nine-instruction sample program, `eval` returns
`Err(5)` (infinite loop with accumulator 5), `find_repair` returns
`Some(7)`, instruction 7 is `jmp -4` and repairing it yields `nop -4`,
and `eval` on the repaired program returns `Ok(2)`. -/
theorem day8_sample_program_spec :
    Day8.eval Day8.sampleProgram = some (.err 5) ∧
    Day8.find_repair Day8.sampleProgram = some (some 7) ∧
    Day8.sampleProgram[7]? = some (Day8.Instr.jmp (-4)) ∧
    Day8.Instr.repair (Day8.Instr.jmp (-4)) = some (Day8.Instr.nop (-4)) ∧
    Day8.eval (Day8.sampleProgram.set 7 (Day8.Instr.nop (-4))) = some (.ok 2) := by
  refine ⟨by decide, by decide, by decide, by decide, by decide⟩

/- ===================== src/day13.rs ===================== -/

namespace Day13

/- Sign fact about truncating remainder, used for termination of the
extended-Euclid loop below. -/
theorem neg_tmod_eq (a b : Int) : Int.tmod (-a) b = -(Int.tmod a b) := by
  rw [Int.tmod_def, Int.tmod_def, Int.neg_tdiv]
  ring

theorem natAbs_tmod_lt_natAbs (a b : Int) (hb : b ≠ 0) :
    (Int.tmod a b).natAbs < b.natAbs := by
  have key : ∀ (x y : Int), 0 < y → (Int.tmod x y).natAbs < y.natAbs := by
    intro x y hy
    have hup : Int.tmod x y < y := Int.tmod_lt_of_pos x hy
    rcases le_or_lt 0 x with hx | hx
    · have hlow : 0 ≤ Int.tmod x y := Int.tmod_nonneg y hx
      omega
    · have h1 : Int.tmod x y = -(Int.tmod (-x) y) := by
        rw [← neg_tmod_eq, neg_neg]
      have h2 : 0 ≤ Int.tmod (-x) y := Int.tmod_nonneg y (by omega)
      have h3 : Int.tmod (-x) y < y := Int.tmod_lt_of_pos (-x) hy
      omega
    
  rcases lt_or_gt_of_ne hb with hneg | hpos
  · have h1 : Int.tmod a b = Int.tmod a (-b) := (Int.tmod_neg a (-b)).symm ▸ by
      rw [neg_neg]
    have := key a (-b) (by omega)
    omega
  · exact key a b hpos

/- The `while r != 0` loop of `fn egcd(a: i64, b: i64) -> (i64, i64, i64)`,
carried as explicit state `(r_p, r, s_p, s, t_p, t)`.  Rust `/` on `i64`
truncates toward zero, hence `Int.tdiv`.  The claims restrict attention to
executions whose intermediate products fit in `i64`, so the values are
modelled as unbounded `Int`. -/
def egcdLoop (rp r sp s tp t : Int) : Int × Int × Int :=
  if h : r = 0 then (sp, tp, rp)
  else
    egcdLoop r (rp - Int.tdiv rp r * r) s (sp - Int.tdiv rp r * s) t (tp - Int.tdiv rp r * t)
termination_by r.natAbs
decreasing_by
  have key : rp - Int.tdiv rp r * r = Int.tmod rp r := by
    rw [Int.tmod_def]
    ring
  rw [key]
  exact natAbs_tmod_lt_natAbs rp r h

/- `fn egcd(a, b)`: returns `(x, y, d)` with `a * x + b * y = d`.  The
`assert_eq!(a * x + b * y, d)` in the source always succeeds, by
`egcd_bezout` below, and is therefore not modelled as a failure case. -/
def egcd (a b : Int) : Int × Int × Int :=
  egcdLoop a b 1 0 0 1

/- `fn modinv(a: i64, m: i64) -> Option<i64>`: `rem_euclid` is `Int.emod`
(the `%` of Lean's `Int`).  The `assert_eq!((a * inv_a).rem_euclid(m), 1)`
in the taken branch holds in every execution the claims quantify over
(`m = n_i > 1`), as established by `modinv_eq_some` below. -/
def modinv (a m : Int) : Option Int :=
  if (egcd a m).2.2 = 1 then some ((egcd a m).1 % m) else none

/- `.sum::<Option<i64>>()`: the sum of the values when every element is
`Some`, and `None` otherwise. -/
def optionSum : List (Option Int) → Option Int
  | [] => some 0
  | none :: _ => none
  | some x :: rest =>
    match optionSum rest with
    | some s2 => some (x + s2)
    | none => none

/- The closure mapped over `a.iter().zip(n.iter())` in
`chinese_remainder_theorem`: `let N_i = N / n_i; let M_i = modinv(N_i, n_i)?;
Some(a_i * M_i * N_i)`. -/
def crtTerm (N : Int) (p : Int × Int) : Option Int :=
  (modinv (Int.tdiv N p.2) p.2).map (fun M => p.1 * M * Int.tdiv N p.2)

/- `fn chinese_remainder_theorem(a: &[i64], n: &[i64]) -> Option<i64>`,
with `N = n.iter().product()` written inline as `n.prod`. -/
def chinese_remainder_theorem (a n : List Int) : Option Int :=
  (optionSum ((a.zip n).map (crtTerm n.prod))).map (fun s2 => s2 % n.prod)

theorem egcdLoop_bezout (a b : Int) (rp r sp s tp t : Int) :
    a * sp + b * tp = rp → a * s + b * t = r →
    a * (egcdLoop rp r sp s tp t).1 + b * (egcdLoop rp r sp s tp t).2.1
      = (egcdLoop rp r sp s tp t).2.2 := by
  induction rp, r, sp, s, tp, t using egcdLoop.induct with
  | case1 rp sp s tp t =>
    intro h1 _h2
    rw [egcdLoop, dif_pos rfl]
    exact h1
  | case2 rp r sp s tp t hr ih =>
    intro h1 h2
    rw [egcdLoop, dif_neg hr]
    exact ih h2 (by linear_combination h1 - Int.tdiv rp r * h2)

theorem egcdLoop_d_dvd (rp r sp s tp t : Int) :
    (egcdLoop rp r sp s tp t).2.2 ∣ rp ∧ (egcdLoop rp r sp s tp t).2.2 ∣ r := by
  induction rp, r, sp, s, tp, t using egcdLoop.induct with
  | case1 rp sp s tp t =>
    rw [egcdLoop, dif_pos rfl]
    exact ⟨dvd_refl rp, dvd_zero rp⟩
  | case2 rp r sp s tp t hr ih =>
    rw [egcdLoop, dif_neg hr]
    refine ⟨?_, ih.1⟩
    have h2 := dvd_add ih.2 (Dvd.dvd.mul_left ih.1 (Int.tdiv rp r))
    simpa using h2

theorem egcdLoop_d_nonneg (rp r sp s tp t : Int) :
    0 ≤ rp → 0 ≤ r → 0 ≤ (egcdLoop rp r sp s tp t).2.2 := by
  induction rp, r, sp, s, tp, t using egcdLoop.induct with
  | case1 rp sp s tp t =>
    intro h1 _h2
    rw [egcdLoop, dif_pos rfl]
    exact h1
  | case2 rp r sp s tp t hr ih =>
    intro h1 h2
    rw [egcdLoop, dif_neg hr]
    apply ih h2
    have key : rp - Int.tdiv rp r * r = Int.tmod rp r := by
      rw [Int.tmod_def]
      ring
    rw [key]
    exact Int.tmod_nonneg r h1

/- Bezout identity for `egcd` (this is exactly the `assert_eq!` in the
source, which therefore never fires). -/
theorem egcd_bezout (a b : Int) :
    a * (egcd a b).1 + b * (egcd a b).2.1 = (egcd a b).2.2 :=
  egcdLoop_bezout a b a b 1 0 0 1 (by ring) (by ring)

theorem egcd_d_dvd (a b : Int) : (egcd a b).2.2 ∣ a ∧ (egcd a b).2.2 ∣ b :=
  egcdLoop_d_dvd a b 1 0 0 1

theorem egcd_d_nonneg (a b : Int) (ha : 0 ≤ a) (hb : 0 ≤ b) :
    0 ≤ (egcd a b).2.2 :=
  egcdLoop_d_nonneg a b 1 0 0 1 ha hb

theorem egcd_d_one_imp_gcd_one (a b : Int) (h : (egcd a b).2.2 = 1) :
    Int.gcd a b = 1 := by
  have hbez := egcd_bezout a b
  rw [h] at hbez
  have hg : (Int.gcd a b : Int) ∣ 1 := by
    rw [← hbez]
    exact dvd_add (Dvd.dvd.mul_right Int.gcd_dvd_left _)
      (Dvd.dvd.mul_right Int.gcd_dvd_right _)
  have hg2 : Int.gcd a b ∣ 1 := by exact_mod_cast hg
  exact Nat.dvd_one.mp hg2

theorem gcd_one_imp_egcd_d_one (a b : Int) (ha : 0 ≤ a) (hb : 0 ≤ b)
    (h : Int.gcd a b = 1) : (egcd a b).2.2 = 1 := by
  have hd := egcd_d_dvd a b
  have hdg : (egcd a b).2.2 ∣ (Int.gcd a b : Int) := Int.dvd_gcd hd.1 hd.2
  rw [h] at hdg
  norm_num at hdg
  have hnn := egcd_d_nonneg a b ha hb
  rcases Int.isUnit_iff.mp (isUnit_of_dvd_one hdg) with h1 | h1 <;> omega

theorem modinv_eq_none (a m : Int) (h : Int.gcd a m ≠ 1) : modinv a m = none := by
  rw [modinv, if_neg]
  intro hd
  exact h (egcd_d_one_imp_gcd_one a m hd)

theorem modinv_eq_some (a m : Int) (ha : 0 ≤ a) (hm : 1 < m)
    (h : Int.gcd a m = 1) :
    ∃ v, modinv a m = some v ∧ 0 ≤ v ∧ v < m ∧ a * v ≡ 1 [ZMOD m] := by
  have hd := gcd_one_imp_egcd_d_one a m ha (by omega) h
  refine ⟨(egcd a m).1 % m, ?_, ?_, ?_, ?_⟩
  · rw [modinv, if_pos hd]
  · exact Int.emod_nonneg _ (by omega)
  · exact Int.emod_lt_of_pos _ (by omega)
  · have h1 : (egcd a m).1 % m ≡ (egcd a m).1 [ZMOD m] :=
      Int.emod_emod_of_dvd _ dvd_rfl
    have h2 : a * (egcd a m).1 ≡ 1 [ZMOD m] := by
      rw [Int.modEq_iff_dvd]
      refine ⟨(egcd a m).2.1, ?_⟩
      have hbez := egcd_bezout a m
      rw [hd] at hbez
      linear_combination -hbez
    exact (Int.ModEq.mul_left a h1).trans h2

end Day13

namespace Day13

/- List bookkeeping facts used in the correctness proof of
`chinese_remainder_theorem`. -/

theorem optionSum_eq_some (l : List (Option Int)) (h : ∀ o ∈ l, o.isSome) :
    optionSum l = some ((l.map (fun o => o.getD 0)).sum) := by
  induction l with
  | nil => rfl
  | cons o rest ih =>
    obtain ⟨x, hx⟩ := Option.isSome_iff_exists.mp (h o (by simp))
    have ih2 := ih (fun p hp => h p (by simp [hp]))
    subst hx
    rw [optionSum, ih2]
    simp


theorem optionSum_eq_none (l : List (Option Int)) (h : none ∈ l) :
    optionSum l = none := by
  induction l with
  | nil => simp at h
  | cons o rest ih =>
    rcases List.mem_cons.mp h with h1 | h2
    · rw [← h1, optionSum]
    · cases o with
      | none => rfl
      | some x => rw [optionSum, ih h2]

theorem list_prod_eraseIdx (l : List Int) :
    ∀ (i : Nat) (hi : i < l.length),
      l.prod = l.get ⟨i, hi⟩ * (l.eraseIdx i).prod := by
  induction l with
  | nil => intro i hi; simp at hi
  | cons x xs ih =>
    intro i hi
    cases i with
    | zero => simp
    | succ j =>
      have hj : j < xs.length := by simpa using hi
      simp only [List.eraseIdx_cons_succ, List.prod_cons, List.get_cons_succ]
      rw [ih j hj]
      ring

theorem list_sum_eraseIdx (l : List Int) :
    ∀ (i : Nat) (hi : i < l.length),
      l.sum = l.get ⟨i, hi⟩ + (l.eraseIdx i).sum := by
  induction l with
  | nil => intro i hi; simp at hi
  | cons x xs ih =>
    intro i hi
    cases i with
    | zero => simp
    | succ j =>
      have hj : j < xs.length := by simpa using hi
      simp only [List.eraseIdx_cons_succ, List.sum_cons, List.get_cons_succ]
      rw [ih j hj]
      ring

theorem mem_eraseIdx_imp {α : Type} (l : List α) (i : Nat) (hi : i < l.length)
    (x : α) (hx : x ∈ l.eraseIdx i) :
    ∃ j, ∃ hj : j < l.length, j ≠ i ∧ l.get ⟨j, hj⟩ = x := by
  obtain ⟨k, hk, hkx⟩ := List.mem_iff_getElem.mp hx
  have hklen : k < l.length - 1 := by
    rw [List.length_eraseIdx, if_pos hi] at hk
    exact hk
  rw [List.getElem_eraseIdx] at hkx
  by_cases hki : k < i
  · refine ⟨k, by omega, by omega, ?_⟩
    rw [dif_pos hki] at hkx
    simpa [List.get_eq_getElem] using hkx
  · refine ⟨k + 1, by omega, by omega, ?_⟩
    rw [dif_neg hki] at hkx
    simpa [List.get_eq_getElem] using hkx

theorem get_mem_eraseIdx {α : Type} (l : List α) (i j : Nat) (hj : j < l.length)
    (hij : j ≠ i) (hi : i < l.length) :
    l.get ⟨j, hj⟩ ∈ l.eraseIdx i := by
  apply List.mem_iff_getElem.mpr
  rcases Nat.lt_or_ge j i with h | h
  · refine ⟨j, ?_, ?_⟩
    · rw [List.length_eraseIdx, if_pos hi]
      omega
    · rw [List.getElem_eraseIdx, dif_pos h]
      simp
  · have hji : i < j := by omega
    refine ⟨j - 1, ?_, ?_⟩
    · rw [List.length_eraseIdx, if_pos hi]
      omega
    · rw [List.getElem_eraseIdx, dif_neg (by omega)]
      have hj1 : j - 1 + 1 = j := by omega
      simp only [hj1]
      simp

theorem isCoprime_list_prod (l : List Int) (k : Int)
    (h : ∀ x ∈ l, IsCoprime x k) : IsCoprime l.prod k := by
  induction l with
  | nil => simpa using isCoprime_one_left
  | cons x xs ih =>
    rw [List.prod_cons]
    exact IsCoprime.mul_left (h x (by simp)) (ih (fun y hy => h y (by simp [hy])))

end Day13

namespace Day13

/- Exact division of the modulus product: `N / n_i` is the product of the
other moduli. -/
theorem tdiv_prod_get (n : List Int) (hpos : ∀ x ∈ n, 1 < x)
    (i : Nat) (hi : i < n.length) :
    Int.tdiv n.prod (n.get ⟨i, hi⟩) = (n.eraseIdx i).prod := by
  have hsplit := list_prod_eraseIdx n i hi
  have hne0 : n.get ⟨i, hi⟩ ≠ 0 := by
    have := hpos _ (List.get_mem n i hi)
    omega
  rw [hsplit, Int.mul_tdiv_cancel_left _ hne0]

end Day13

/-- C2: for equal-length lists `a`, `n` with at least one entry, every
modulus greater than 1 and the moduli pairwise coprime,
`chinese_remainder_theorem a n` returns `Some x` with `0 ≤ x < N`
(`N` the product of the moduli) and `x ≡ a_i (mod n_i)` for every `i`;
and whenever some `N / n_i` shares a factor with `n_i` (their gcd is not
1), it returns `None`.  Intermediate products are modelled as exact
integers, which the claim's fits-in-`i64` proviso guarantees. -/
theorem chinese_remainder_theorem_spec (a n : List Int)
    (hlen : a.length = n.length) (_hne : n ≠ [])
    (hpos : ∀ x ∈ n, 1 < x) :
    (n.Pairwise (fun x y => Int.gcd x y = 1) →
      ∃ x, Day13.chinese_remainder_theorem a n = some x ∧ 0 ≤ x ∧ x < n.prod ∧
        ∀ p ∈ a.zip n, x ≡ p.1 [ZMOD p.2]) ∧
    ((∃ i, ∃ hi : i < n.length,
        Int.gcd (Int.tdiv n.prod (n.get ⟨i, hi⟩)) (n.get ⟨i, hi⟩) ≠ 1) →
      Day13.chinese_remainder_theorem a n = none) := by
  have hNpos : (0 : Int) < n.prod := List.prod_pos (fun x hx => by
    have := hpos x hx
    omega)
  have hzlen : (a.zip n).length = n.length := by
    rw [List.length_zip, hlen]
    simp
  constructor
  · intro hcop
    have hco : ∀ (i j : Nat) (hi : i < n.length) (hj : j < n.length), i ≠ j →
        Int.gcd (n.get ⟨i, hi⟩) (n.get ⟨j, hj⟩) = 1 := by
      intro i j hi hj hij
      have hpg := List.pairwise_iff_getElem.mp hcop
      rcases Nat.lt_or_ge i j with h | h
      · have := hpg i j hi hj h
        simpa [List.get_eq_getElem] using this
      · have := hpg j i hj hi (by omega)
        rw [Int.gcd_comm]
        simpa [List.get_eq_getElem] using this
    have hcoP : ∀ (i : Nat) (hi : i < n.length),
        Int.gcd ((n.eraseIdx i).prod) (n.get ⟨i, hi⟩) = 1 := by
      intro i hi
      rw [← Int.isCoprime_iff_gcd_eq_one]
      apply Day13.isCoprime_list_prod
      intro x hx
      obtain ⟨j, hj, hji, hx2⟩ := Day13.mem_eraseIdx_imp n i hi x hx
      rw [← hx2, Int.isCoprime_iff_gcd_eq_one]
      exact hco j i hj hi hji
    have hMi : ∀ (i : Nat) (hi : i < n.length),
        ∃ M, Day13.modinv (Int.tdiv n.prod (n.get ⟨i, hi⟩)) (n.get ⟨i, hi⟩) = some M ∧
          0 ≤ M ∧ M < n.get ⟨i, hi⟩ ∧
          (Int.tdiv n.prod (n.get ⟨i, hi⟩)) * M ≡ 1 [ZMOD (n.get ⟨i, hi⟩)] := by
      intro i hi
      apply Day13.modinv_eq_some
      · rw [Day13.tdiv_prod_get n hpos i hi]
        apply List.prod_nonneg
        intro x hx
        have := hpos x (List.mem_of_mem_eraseIdx hx)
        omega
      · exact hpos _ (List.get_mem n i hi)
      · rw [Day13.tdiv_prod_get n hpos i hi]
        exact hcoP i hi
    have hsome : ∀ o ∈ (a.zip n).map (Day13.crtTerm n.prod), o.isSome := by
      intro o ho
      obtain ⟨p, hp, hpo⟩ := List.mem_map.mp ho
      obtain ⟨k, hk, hkp⟩ := List.mem_iff_getElem.mp hp
      have hkn : k < n.length := by omega
      have hka : k < a.length := by omega
      have hpk : p = (a.get ⟨k, hka⟩, n.get ⟨k, hkn⟩) := by
        rw [← hkp]
        simp [List.getElem_zip, List.get_eq_getElem]
      obtain ⟨M, hM1, -, -, -⟩ := hMi k hkn
      simp only [List.get_eq_getElem] at hM1
      rw [← hpo, hpk]
      simp [Day13.crtTerm, List.get_eq_getElem, hM1]
    have hsum := Day13.optionSum_eq_some _ hsome
    set tv := ((a.zip n).map (Day13.crtTerm n.prod)).map (fun o => o.getD 0) with htv
    have htvlen : tv.length = (a.zip n).length := by simp [htv]
    have htvval : ∀ (k : Nat) (hk1 : k < tv.length) (hk : k < n.length) (hka : k < a.length),
        tv.get ⟨k, hk1⟩ = a.get ⟨k, hka⟩ *
          ((Day13.modinv (Int.tdiv n.prod (n.get ⟨k, hk⟩)) (n.get ⟨k, hk⟩)).getD 0) *
          Int.tdiv n.prod (n.get ⟨k, hk⟩) := by
      intro k hk1 hk hka
      obtain ⟨M, hM1, -, -, -⟩ := hMi k hk
      simp only [List.get_eq_getElem] at hM1
      simp [htv, List.get_eq_getElem, List.getElem_map, List.getElem_zip,
        Day13.crtTerm, hM1]
    refine ⟨tv.sum % n.prod, ?_, ?_, ?_, ?_⟩
    · rw [Day13.chinese_remainder_theorem, hsum]
      rfl
    · exact Int.emod_nonneg _ (by omega)
    · exact Int.emod_lt_of_pos _ hNpos
    · intro p hp
      obtain ⟨j, hj, hjp⟩ := List.mem_iff_getElem.mp hp
      have hjn : j < n.length := by omega
      have hja : j < a.length := by omega
      have hjtv : j < tv.length := by omega
      have hpj : p = (a.get ⟨j, hja⟩, n.get ⟨j, hjn⟩) := by
        rw [← hjp]
        simp [List.getElem_zip, List.get_eq_getElem]
      have hdvdN : n.get ⟨j, hjn⟩ ∣ n.prod := List.dvd_prod (List.get_mem n j hjn)
      have h3 : (tv.sum % n.prod) ≡ tv.sum [ZMOD n.get ⟨j, hjn⟩] :=
        Int.emod_emod_of_dvd _ hdvdN
      have hdvd_tv : ∀ (k : Nat) (hk1 : k < tv.length), k ≠ j →
          n.get ⟨j, hjn⟩ ∣ tv.get ⟨k, hk1⟩ := by
        intro k hk1 hkj
        have hk : k < n.length := by omega
        have hka : k < a.length := by omega
        rw [htvval k hk1 hk hka]
        have hmem : n.get ⟨j, hjn⟩ ∈ n.eraseIdx k :=
          Day13.get_mem_eraseIdx n k j hjn (Ne.symm hkj) hk
        have hP : n.get ⟨j, hjn⟩ ∣ Int.tdiv n.prod (n.get ⟨k, hk⟩) := by
          rw [Day13.tdiv_prod_get n hpos k hk]
          exact List.dvd_prod hmem
        exact Dvd.dvd.mul_left hP _
      have hS1 : tv.sum ≡ tv.get ⟨j, hjtv⟩ [ZMOD n.get ⟨j, hjn⟩] := by
        rw [Int.modEq_iff_dvd]
        have hsplit := Day13.list_sum_eraseIdx tv j hjtv
        have hrw : tv.get ⟨j, hjtv⟩ - tv.sum = -((tv.eraseIdx j).sum) := by
          rw [hsplit]
          ring
        rw [hrw]
        apply dvd_neg.mpr
        apply List.dvd_sum
        intro y hy
        obtain ⟨k, hk, hkj, hky⟩ := Day13.mem_eraseIdx_imp tv j hjtv y hy
        rw [← hky]
        exact hdvd_tv k hk hkj
      have hS2 : tv.get ⟨j, hjtv⟩ ≡ a.get ⟨j, hja⟩ [ZMOD n.get ⟨j, hjn⟩] := by
        obtain ⟨M, hM1, -, -, hM4⟩ := hMi j hjn
        rw [htvval j hjtv hjn hja, hM1]
        simp only [Option.getD_some]
        have h5 : a.get ⟨j, hja⟩ * (Int.tdiv n.prod (n.get ⟨j, hjn⟩) * M) ≡
            a.get ⟨j, hja⟩ * 1 [ZMOD n.get ⟨j, hjn⟩] :=
          Int.ModEq.mul_left _ hM4
        calc a.get ⟨j, hja⟩ * M * Int.tdiv n.prod (n.get ⟨j, hjn⟩)
            = a.get ⟨j, hja⟩ * (Int.tdiv n.prod (n.get ⟨j, hjn⟩) * M) := by ring
          _ ≡ a.get ⟨j, hja⟩ * 1 [ZMOD n.get ⟨j, hjn⟩] := h5
          _ = a.get ⟨j, hja⟩ := mul_one _
      rw [hpj]
      exact h3.trans (hS1.trans hS2)
  · intro h2
    obtain ⟨i, hi, hgcd⟩ := h2
    simp only [List.get_eq_getElem] at hgcd
    rw [Day13.chinese_remainder_theorem]
    have hia : i < a.length := by omega
    have hnone : (none : Option Int) ∈ (a.zip n).map (Day13.crtTerm n.prod) := by
      apply List.mem_map.mpr
      refine ⟨(a.get ⟨i, hia⟩, n.get ⟨i, hi⟩), ?_, ?_⟩
      · apply List.mem_iff_getElem.mpr
        refine ⟨i, by omega, by simp [List.getElem_zip, List.get_eq_getElem]⟩
      · simp [Day13.crtTerm, Day13.modinv_eq_none _ _ hgcd]
    rw [Day13.optionSum_eq_none _ hnone]
    rfl

/-- C2 witness: the classic instance `x ≡ 2 (mod 3)`, `x ≡ 3 (mod 5)`,
`x ≡ 2 (mod 7)` satisfies the hypotheses, so the solver returns a value in
range satisfying all three congruences. -/
theorem chinese_remainder_theorem_spec_witness :
    (([2, 3, 2] : List Int).length = ([3, 5, 7] : List Int).length ∧
      ([3, 5, 7] : List Int) ≠ [] ∧
      (∀ x ∈ ([3, 5, 7] : List Int), 1 < x) ∧
      ([3, 5, 7] : List Int).Pairwise (fun x y => Int.gcd x y = 1)) ∧
    ∃ x, Day13.chinese_remainder_theorem [2, 3, 2] [3, 5, 7] = some x ∧
      0 ≤ x ∧ x < ([3, 5, 7] : List Int).prod ∧
      ∀ p ∈ (([2, 3, 2] : List Int).zip [3, 5, 7]), x ≡ p.1 [ZMOD p.2] :=
  ⟨⟨rfl, by decide, by decide, by decide⟩,
    (chinese_remainder_theorem_spec [2, 3, 2] [3, 5, 7] rfl (by decide)
      (by decide)).1 (by decide)⟩

/- ===================== src/day14.rs ===================== -/

namespace Day14

/- `const BITS: u8 = 36; const VALUE_MASK: u64 = (1 << BITS) - 1;` -/
def BITS : Nat := 36

def VALUE_MASK : Nat := (1 <<< BITS) - 1

/- `enum Action { SetMask { one_mask, zero_mask }, SetMem { addr, value } }`
with `u64` fields modelled as naturals below `2^64`. -/
inductive Action
  | setMask (one_mask zero_mask : Nat)
  | setMem (addr value : Nat)
deriving DecidableEq

def Action.valid : Action → Prop
  | .setMask one_mask zero_mask => one_mask < 2 ^ 64 ∧ zero_mask < 2 ^ 64
  | .setMem addr value => addr < 2 ^ 64 ∧ value < 2 ^ 64

/- `struct Memory { mem: HashMap<u64, u64>, one_mask, zero_mask,
floating_mask: u64 }`, the map modelled as an association list. -/
structure Memory where
  mem : List (Nat × Nat)
  one_mask : Nat
  zero_mask : Nat
  floating_mask : Nat
deriving DecidableEq

/- `Memory::new()` -/
def Memory.new : Memory :=
  { mem := [], one_mask := 0, zero_mask := 0, floating_mask := 0 }

/- `HashMap::insert`: the key is bound to the new value, any previous
binding removed. -/
def hmInsert (m : List (Nat × Nat)) (k v : Nat) : List (Nat × Nat) :=
  (k, v) :: m.filter (fun p => p.1 ≠ k)

/- `!zero_mask` on `u64`: complement within 64 bits. -/
def not64 (x : Nat) : Nat := (2 ^ 64 - 1) ^^^ x

/- `Memory::apply_action_v1`. -/
def Memory.apply_action_v1 (m : Memory) (action : Action) : Memory :=
  match action with
  | .setMask one_mask zero_mask =>
    { m with one_mask := one_mask, zero_mask := zero_mask }
  | .setMem addr value =>
    let value2 := (value ||| m.one_mask) &&& not64 m.zero_mask
    let value3 := value2 &&& VALUE_MASK
    { m with mem := hmInsert m.mem addr value3 }

/- Folding a whole action sequence from `Memory::new()`, as `run` does with
`actions.iter().fold(Memory::new(), ...)`. -/
def applyAllV1 (actions : List Action) : Memory :=
  actions.foldl Memory.apply_action_v1 Memory.new

end Day14

/-- C10: every value stored by `apply_action_v1` is masked to 36 bits, so
the invariant "all stored values are below `2^36`" holds in `Memory::new()`
and is preserved by every action; consequently after any action sequence
from `Memory::new()` every stored value is below `2^36`, regardless of the
64-bit values in `SetMem` actions. -/
theorem memory_values_below_36_bits :
    (∀ (m : Day14.Memory) (act : Day14.Action),
      (∀ p ∈ m.mem, p.2 < 2 ^ 36) →
      ∀ p ∈ (m.apply_action_v1 act).mem, p.2 < 2 ^ 36) ∧
    (∀ (actions : List Day14.Action),
      ∀ p ∈ (Day14.applyAllV1 actions).mem, p.2 < 2 ^ 36) := by
  have hstep : ∀ (m : Day14.Memory) (act : Day14.Action),
      (∀ p ∈ m.mem, p.2 < 2 ^ 36) →
      ∀ p ∈ (m.apply_action_v1 act).mem, p.2 < 2 ^ 36 := by
    intro m act hm p hp
    cases act with
    | setMask one_mask zero_mask => exact hm p hp
    | setMem addr value =>
      simp only [Day14.Memory.apply_action_v1, Day14.hmInsert, List.mem_cons] at hp
      rcases hp with hp | hp
      · subst hp
        have h1 : ((value ||| m.one_mask) &&& Day14.not64 m.zero_mask) &&&
            Day14.VALUE_MASK ≤ Day14.VALUE_MASK := Nat.and_le_right
        have h2 : Day14.VALUE_MASK < 2 ^ 36 := by decide
        omega
      · exact hm p (List.mem_of_mem_filter hp)
  refine ⟨hstep, ?_⟩
  intro actions
  rw [Day14.applyAllV1]
  have hgen : ∀ (acts : List Day14.Action) (m : Day14.Memory),
      (∀ p ∈ m.mem, p.2 < 2 ^ 36) →
      ∀ p ∈ (acts.foldl Day14.Memory.apply_action_v1 m).mem, p.2 < 2 ^ 36 := by
    intro acts
    induction acts with
    | nil => intro m hm; exact hm
    | cons act rest ih =>
      intro m hm
      rw [List.foldl_cons]
      exact ih _ (hstep m act hm)
  exact hgen actions Day14.Memory.new (by simp [Day14.Memory.new])

/-- C10 witness: after `mem[0] = 2^64 - 1` (every bit set in the written
value), the stored value is `2^36 - 1`, which is below `2^36`. -/
theorem memory_values_below_36_bits_witness :
    (((0 : Nat), (2 ^ 36 - 1 : Nat)) ∈
      (Day14.applyAllV1 [Day14.Action.setMem 0 (2 ^ 64 - 1)]).mem) ∧
    ((2 ^ 36 - 1 : Nat) < 2 ^ 36) :=
  ⟨by decide, memory_values_below_36_bits.2 [Day14.Action.setMem 0 (2 ^ 64 - 1)]
    ((0 : Nat), (2 ^ 36 - 1 : Nat)) (by decide)⟩

/- ===================== src/day16.rs ===================== -/

namespace Day16

/- The sort key order of `sorted.sort_unstable_by_key(|range| *range.start())`:
compare inclusive ranges (modelled as `(start, end)` pairs) by start. -/
def rangeLE (p q : Nat × Nat) : Prop := p.1 ≤ q.1

instance : DecidableRel rangeLE :=
  fun p q => inferInstanceAs (Decidable (p.1 ≤ q.1))

instance : IsTotal (Nat × Nat) rangeLE :=
  ⟨fun p q => Nat.le_total p.1 q.1⟩

instance : IsTrans (Nat × Nat) rangeLE :=
  ⟨fun _ _ _ => Nat.le_trans⟩

/- The inner `while let Some(next) = next_if(&mut sorted, |next|
*next.start() <= end + 1)` loop of `RangeSet::from_iter`: consume ranges
whose start lies at or before `end + 1`, expanding `end` to the maximum of
the consumed ends; return the expanded end and the unconsumed suffix.
Endpoints are `u16`; the claims assume them below `u16::MAX`, so `end + 1`
never overflows and natural-number arithmetic is faithful. -/
def eatRanges (e : Nat) : List (Nat × Nat) → Nat × List (Nat × Nat)
  | [] => (e, [])
  | q :: rest =>
    if q.1 ≤ e + 1 then eatRanges (max e q.2) rest
    else (e, q :: rest)

theorem eatRanges_sublist (e : Nat) (l : List (Nat × Nat)) :
    (eatRanges e l).2.Sublist l := by
  induction l generalizing e with
  | nil => simp [eatRanges]
  | cons q rest ih =>
    rw [eatRanges]
    by_cases hcond : q.1 ≤ e + 1
    · rw [if_pos hcond]
      exact (ih (max e q.2)).cons q
    · rw [if_neg hcond]

/- The outer `while let Some(range) = sorted.next()` loop of
`RangeSet::from_iter`, applied to the already-sorted list. -/
def mergeSorted : List (Nat × Nat) → List (Nat × Nat)
  | [] => []
  | q :: rest => (q.1, (eatRanges q.2 rest).1) :: mergeSorted (eatRanges q.2 rest).2
termination_by l => l.length
decreasing_by
  have := (eatRanges_sublist q.2 rest).length_le
  simp only [List.length_cons]
  omega

/- `struct RangeSet { merged: Vec<Range> }` -/
structure RangeSet where
  merged : List (Nat × Nat)
deriving DecidableEq

/- `RangeSet::from_iter`: sort by range start (`sort_unstable_by_key`,
modelled as insertion sort by the same key), then merge. -/
def RangeSet.from_iter (unsorted : List (Nat × Nat)) : RangeSet :=
  ⟨mergeSorted (List.insertionSort rangeLE unsorted)⟩

/- `RangeSet::contains`: true when some merged range contains the value. -/
def RangeSet.contains (rs : RangeSet) (value : Nat) : Bool :=
  rs.merged.any (fun range => decide (range.1 ≤ value) && decide (value ≤ range.2))

/- Membership of a value in some range of a list. -/
def inSome (l : List (Nat × Nat)) (v : Nat) : Prop :=
  ∃ p ∈ l, p.1 ≤ v ∧ v ≤ p.2

theorem inSome_cons (q : Nat × Nat) (l : List (Nat × Nat)) (v : Nat) :
    inSome (q :: l) v ↔ (q.1 ≤ v ∧ v ≤ q.2) ∨ inSome l v := by
  simp [inSome, List.mem_cons, or_and_right, exists_or]

theorem eat_iff (v s : Nat) (rest : List (Nat × Nat)) :
    ∀ (e : Nat), (∀ p ∈ rest, s ≤ p.1) →
      ((s ≤ v ∧ v ≤ (eatRanges e rest).1) ∨ inSome (eatRanges e rest).2 v ↔
        (s ≤ v ∧ v ≤ e) ∨ inSome rest v) := by
  induction rest with
  | nil => intro e _; simp [eatRanges]
  | cons q rr ih =>
    intro e h
    rw [eatRanges]
    by_cases hcond : q.1 ≤ e + 1
    · rw [if_pos hcond]
      have hs2 : s ≤ q.1 := h q (by simp)
      have hrr : ∀ p ∈ rr, s ≤ p.1 := fun p hp => h p (by simp [hp])
      rw [ih (max e q.2) hrr, inSome_cons]
      constructor
      · rintro (⟨h1, h2⟩ | hC)
        · by_cases hv : v ≤ e
          · exact Or.inl ⟨h1, hv⟩
          · exact Or.inr (Or.inl ⟨by omega, by omega⟩)
        · exact Or.inr (Or.inr hC)
      · rintro (⟨h1, h2⟩ | ⟨h1, h2⟩ | hC)
        · exact Or.inl ⟨h1, by omega⟩
        · exact Or.inl ⟨by omega, by omega⟩
        · exact Or.inr hC
    · rw [if_neg hcond]

theorem mergeSorted_iff (v : Nat) (l : List (Nat × Nat)) :
    List.Pairwise rangeLE l → (inSome (mergeSorted l) v ↔ inSome l v) := by
  induction l using mergeSorted.induct with
  | case1 =>
    intro _
    rw [mergeSorted]
  | case2 q rest ih =>
    intro hpw
    rw [mergeSorted]
    obtain ⟨hhead, hpw_rest⟩ := List.pairwise_cons.mp hpw
    have hstarts : ∀ p ∈ rest, q.1 ≤ p.1 := fun p hp => hhead p hp
    have hpw2 : List.Pairwise rangeLE (eatRanges q.2 rest).2 :=
      hpw_rest.sublist (eatRanges_sublist q.2 rest)
    rw [inSome_cons, inSome_cons, ih hpw2]
    exact eat_iff v q.1 rest q.2 hstarts

end Day16

/-- C3: for every finite collection of inclusive `u16` ranges whose
endpoints are below `u16::MAX`, `RangeSet::from_iter` merges overlapping
and adjacent ranges and keeps disjoint ones separate, so that
`RangeSet::contains v` holds if and only if `v` lies inside at least one
input range. -/
theorem rangeset_contains_iff (l : List (Nat × Nat)) (v : Nat)
    (_h : ∀ p ∈ l, p.1 < 65535 ∧ p.2 < 65535) :
    (Day16.RangeSet.from_iter l).contains v = true ↔
      ∃ p ∈ l, p.1 ≤ v ∧ v ≤ p.2 := by
  have h1 : (Day16.RangeSet.from_iter l).contains v = true ↔
      Day16.inSome (Day16.mergeSorted (List.insertionSort Day16.rangeLE l)) v := by
    simp [Day16.RangeSet.contains, Day16.RangeSet.from_iter, Day16.inSome,
      List.any_eq_true]
  have hsorted : List.Pairwise Day16.rangeLE (List.insertionSort Day16.rangeLE l) :=
    List.sorted_insertionSort Day16.rangeLE l
  have hperm := List.perm_insertionSort Day16.rangeLE l
  rw [h1, Day16.mergeSorted_iff v _ hsorted]
  simp only [Day16.inSome]
  constructor
  · rintro ⟨p, hp, hpv⟩
    exact ⟨p, hperm.mem_iff.mp hp, hpv⟩
  · rintro ⟨p, hp, hpv⟩
    exact ⟨p, hperm.mem_iff.mpr hp, hpv⟩

/-- C3 witness: on the ranges `[3..=5, 0..=1, 6..=8, 20..=22]` (overlapping
or adjacent `3..=5`/`6..=8`, disjoint `0..=1` and `20..=22`), the value 7
is contained exactly when some input range contains it. -/
theorem rangeset_contains_iff_witness :
    (∀ p ∈ ([(3, 5), (0, 1), (6, 8), (20, 22)] : List (Nat × Nat)),
      p.1 < 65535 ∧ p.2 < 65535) ∧
    ((Day16.RangeSet.from_iter [(3, 5), (0, 1), (6, 8), (20, 22)]).contains 7 = true ↔
      ∃ p ∈ ([(3, 5), (0, 1), (6, 8), (20, 22)] : List (Nat × Nat)),
        p.1 ≤ 7 ∧ 7 ≤ p.2) :=
  ⟨by decide, rangeset_contains_iff [(3, 5), (0, 1), (6, 8), (20, 22)] 7 (by decide)⟩

/-- C7: for every input line that is not a well-formed instruction — its
three-character mnemonic is none of `acc`, `jmp`, `nop`, or the value part
after the sign/separator character does not parse as a signed 16-bit
integer — `Instr::from_str` panics (modelled as `none`) rather than
returning an instruction: no malformed line yields a parsed value. -/
theorem instr_from_str_rejects_malformed (s : List Char)
    (h : (s.take 3 ≠ ['a', 'c', 'c'] ∧ s.take 3 ≠ ['j', 'm', 'p'] ∧
          s.take 3 ≠ ['n', 'o', 'p']) ∨
      Day8.parseI16 (s.drop 4) = none) :
    Day8.instrFromStr s = none := by
  rw [Day8.instrFromStr]
  by_cases h3 : s.length < 3
  · rw [if_pos h3]
  · rw [if_neg h3]
    by_cases h4 : s.length < 4
    · rw [if_pos h4]
    · rw [if_neg h4]
      rcases h with ⟨ha, hj, hn⟩ | hp
      · cases hparse : Day8.parseI16 (s.drop 4) with
        | none => rfl
        | some v => simp [ha, hj, hn]
      · rw [hp]

/-- C7 witness: the line `"foo +1"` has an unknown mnemonic and parses to
no instruction. -/
theorem instr_from_str_rejects_malformed_witness :
    ((['f', 'o', 'o', ' ', '+', '1'].take 3 ≠ ['a', 'c', 'c'] ∧
      ['f', 'o', 'o', ' ', '+', '1'].take 3 ≠ ['j', 'm', 'p'] ∧
      ['f', 'o', 'o', ' ', '+', '1'].take 3 ≠ ['n', 'o', 'p']) ∨
      Day8.parseI16 (['f', 'o', 'o', ' ', '+', '1'].drop 4) = none) ∧
    Day8.instrFromStr ['f', 'o', 'o', ' ', '+', '1'] = none :=
  ⟨Or.inl (by decide),
    instr_from_str_rejects_malformed ['f', 'o', 'o', ' ', '+', '1']
      (Or.inl (by decide))⟩
